import Mathlib

/-!
Verification of the sliding-puzzle game engine (`src/spgame.ts`).

The development shallowly embeds the core game logic: the grid model,
the permutation solvability checker (`permutationProof`), the shuffle
generator (`shuffle` / `getShuffleArray`), fixed-shuffle validation
(`setfixedShuffleArr`), the construction-time shape check, and the
puzzle state machine (`gamePlay`, the animation-completion commit,
`checkAndFinish`, `resolve`, `reShuffle`).

Modelling conventions:
* JS number arrays of tile indices become `List ℕ`.  The source compares
  arrays via `toString()`; for arrays of natural numbers the comma-joined
  decimal representation is injective, so this is modelled as list equality.
* `Vector2` grid coordinates become a pair of integers (`Vec2`), since the
  adjacency test subtracts coordinates.
* The numeric components of the puzzle shape at construction time are JS
  doubles; the construction-time checks (`% 1`, `< 2`) are exact on the
  rationals, so the shape check is modelled over `ℚ`.
* Hook invocations (`start`, `finish`, `willMove`, `willStall`) are
  zero-argument callbacks; operations return the list of hooks they fire.
* `Math.random`-driven choices are supplied by oracle parameters: `shuffle`
  takes a seed function giving the chosen index for each loop position, and
  `getShuffleArray` takes a stream of seed functions, one per retry of its
  `while` loop (`none` models a never-succeeding loop).
* The engine add/remove of the void tile entity is tracked by the boolean
  field `voidAlive`; 3D transform updates are visual-adapter plumbing with
  no effect on the grid state and are not modelled.
* A thrown JS error is modelled by `Except.error`; since a throw aborts the
  method before any later assignment, the caller's state is unchanged on
  the error path.
-/

/-- Two-dimensional grid coordinate (`Vector2` in the source), with integer
components so that `subtract` is exact. -/
structure Vec2 where
  x : ℤ
  y : ℤ
deriving DecidableEq, Repr

/-- `Vector2.subtract`: component-wise subtraction. -/
def Vec2.subtract (a b : Vec2) : Vec2 := ⟨a.x - b.x, a.y - b.y⟩

/-- `Vector2.lengthSquared`: squared Euclidean length.  The source compares
it with `1.0`; on integer grid coordinates that comparison is exact. -/
def Vec2.lengthSquared (v : Vec2) : ℤ := v.x * v.x + v.y * v.y

/-- The `SPTile` component: one-dimensional origin index, origin grid
coordinate and current grid coordinate. -/
structure SPTile where
  index : ℕ
  gridOrigin : Vec2
  gridCurrent : Vec2
deriving DecidableEq, Repr

/-- The four lifecycle hooks of `SPGameActions`. -/
inductive Hook where
  | start
  | finish
  | willMove
  | willStall
deriving DecidableEq, Repr

/-- The state of an `SPGame` instance: puzzle shape (`x` = rows, `y` =
columns), the tiles ordered by origin index, the `ISPGameState` flags, the
void tile's engine-registration state, and the stored fixed shuffle. -/
structure SPGame where
  puzzleShapeX : ℕ
  puzzleShapeY : ℕ
  tiles : List SPTile
  isRunning : Bool
  lockedInput : Bool
  voidAlive : Bool
  fixedShuffleArr : Option (List ℕ)
deriving DecidableEq, Repr

/-- `this.tileCnt = puzzleShape.x * puzzleShape.y`. -/
def SPGame.tileCnt (g : SPGame) : ℕ := g.puzzleShapeX * g.puzzleShapeY

/-- Placeholder tile used to totalise list indexing; every access in the
verified statements is guarded by a length hypothesis. -/
def defaultTile : SPTile := ⟨0, ⟨0, 0⟩, ⟨0, 0⟩⟩

/-- `this.tiles[this.tileCnt - 1]`, the void tile. -/
def SPGame.voidTile (g : SPGame) : SPTile := g.tiles.getD (g.tileCnt - 1) defaultTile

/-- The grid coordinate derived from a one-dimensional index:
`row = Math.floor(n / puzzleShape.y)`, `column = n % puzzleShape.y`
(computed identically in `init` and in `repositionTile`). -/
def gridOfIndex (cols : ℕ) (n : ℕ) : Vec2 := ⟨(n / cols : ℕ), (n % cols : ℕ)⟩

/-- `checkTilePosition`: the tile sits on its origin grid coordinate. -/
def checkTilePosition (tile : SPTile) : Bool :=
  tile.gridCurrent.x == tile.gridOrigin.x && tile.gridCurrent.y == tile.gridOrigin.y

/-- `voidTileVisibility`: add or remove the void tile from the engine
according to `enable`, guarded by its current `alive` state. -/
def voidTileVisibility (g : SPGame) (enable : Bool) : SPGame :=
  if enable && !g.voidAlive then { g with voidAlive := true }
  else if !enable && g.voidAlive then { g with voidAlive := false }
  else g

/-- `repositionTile`: instantaneous reposition to the grid cell of
`newGridIndex` (the accompanying 3D transform update is visual only). -/
def repositionTile (cols : ℕ) (tile : SPTile) (newGridIndex : ℕ) : SPTile :=
  { tile with gridCurrent := gridOfIndex cols newGridIndex }

/-- The accumulator of `permutationProof`: for each tile value
`n = 1 .. voidIndex - 1` it slices the arrangement up to `n`'s position,
counts the smaller values in that prefix (`arrLen`) and pushes
`n - arrLen`; the accumulator is the sum of the pushed values.  On
permutation inputs `arrLen ≤ n`, so natural subtraction is exact. -/
def permutationSum (arr : List ℕ) : ℕ :=
  ((List.range' 1 (arr.length - 1 - 1)).map (fun n =>
    n - ((arr.take (List.indexOf n arr)).filter (fun i => i < n)).length)).sum

/-- `permutationProof`: the solvability checker.  `arr` is the candidate
arrangement, `rows`/`cols` the puzzle shape. -/
def permutationProof (rows cols : ℕ) (arr : List ℕ) : Bool :=
  let voidIndex := arr.length - 1
  let rowIndex := List.indexOf voidIndex arr / cols
  let rowBottomCnt := rows - rowIndex
  if cols % 2 == 1 then permutationSum arr % 2 == 0
  else (permutationSum arr + rowBottomCnt) % 2 == 1

/-- The number of inversions of the arrangement among the non-void tiles:
pairs of values `a < b`, both different from the void index
`arr.length - 1`, in which `b`'s position precedes `a`'s. -/
def nonVoidInversions (arr : List ℕ) : ℕ :=
  ∑ b in Finset.range (arr.length - 1),
    ((Finset.range b).filter (fun a => List.indexOf b arr < List.indexOf a arr)).card

/-- `setfixedShuffleArr`: validate a user-supplied fixed shuffle and store
it.  The three guards throw, in order, before the field is assigned. -/
def setfixedShuffleArr (g : SPGame) (arr : List ℕ) : Except String SPGame :=
  let comperator := List.range g.tileCnt
  let arrSort := arr.mergeSort (fun n1 n2 => n1 ≤ n2)
  if arr = comperator then
    Except.error "the provided fixed shuffle array does not contain a shuffle"
  else if arrSort ≠ comperator then
    Except.error "the provided fixed shuffle array does not contain all required tile indices"
  else if ¬ permutationProof g.puzzleShapeX g.puzzleShapeY arr = true then
    Except.error "the provided fixed shuffle array does not provide a solvable shuffle"
  else
    Except.ok { g with fixedShuffleArr := some arr }

/-- The state of the game object after calling `setfixedShuffleArr`: a
thrown error propagates to the caller before the field assignment, leaving
the object as it was. -/
def trySetfixedShuffleArr (g : SPGame) (arr : List ℕ) : SPGame :=
  match setfixedShuffleArr g arr with
  | Except.ok g2 => g2
  | Except.error _ => g

/-- The Fisher–Yates `shuffle`: for `i = length - 1` down to `1`, swap
`arr[i]` with `arr[j]` where `j = Math.floor(Math.random() * (i + 1))`,
modelled as `seeds i % (i + 1)`. -/
def shuffle (arr : List ℕ) (seeds : ℕ → ℕ) : List ℕ :=
  ((List.range' 1 (arr.length - 1)).reverse).foldl
    (fun a i =>
      (a.set i (a.getD (seeds i % (i + 1)) 0)).set (seeds i % (i + 1)) (a.getD i 0)) arr

/-- `getShuffleArray`: return the stored fixed shuffle when one is present
(without re-validation); otherwise repeatedly shuffle the identity
arrangement until `permutationProof` accepts.  Each retry of the `while`
loop consumes one seed function from the oracle stream; `none` models a
loop that never finds a solvable shuffle. -/
def getShuffleArray (g : SPGame) (seedss : List (ℕ → ℕ)) : Option (List ℕ) :=
  match g.fixedShuffleArr with
  | some a => some a
  | none =>
      (seedss.map (fun s => shuffle (List.range g.tileCnt) s)).find?
        (fun arr => permutationProof g.puzzleShapeX g.puzzleShapeY arr)

/-- `checkAndFinish`: check the void tile first; only when it is in place,
check the tiles of `tiles.slice(0, tileCnt - 2)`; on completion invoke the
`finish` hook, restore the void tile and stop the game.  Returns the
updated state, the fired hooks and the completion verdict. -/
def checkAndFinish (g : SPGame) : SPGame × List Hook × Bool :=
  if checkTilePosition g.voidTile then
    let uncheckedTiles := g.tiles.take (g.tileCnt - 2)
    let result := (uncheckedTiles.map checkTilePosition).all (fun x => x == true)
    if result then
      ({ voidTileVisibility g true with isRunning := false }, [Hook.finish], true)
    else (g, [], false)
  else (g, [], false)

/-- `gamePlay`: the click handler.  The result is `none` when the shuffle
loop diverges; otherwise it carries the post-call state, the hooks fired
synchronously, and the pending animated move (clicked tile position, void
tile position) whose commit is deferred to the animation callback. -/
def gamePlay (g : SPGame) (tile : Option ℕ) (seedss : List (ℕ → ℕ)) :
    Option (SPGame × List Hook × Option (ℕ × ℕ)) :=
  if !g.isRunning then
    match getShuffleArray g seedss with
    | none => none
    | some shuffleArr =>
        let g1 := voidTileVisibility g false
        let g2 := { g1 with
          tiles := g1.tiles.map (fun x =>
            repositionTile g.puzzleShapeY x (List.indexOf x.index shuffleArr)),
          isRunning := true }
        some (g2, [Hook.start], none)
  else if !g.lockedInput && tile.isSome then
    match tile with
    | none => some (g, [], none)
    | some c =>
        let t := g.tiles.getD c defaultTile
        let vec := g.voidTile.gridCurrent.subtract t.gridCurrent
        if vec.lengthSquared == 1 then
          some ({ g with lockedInput := true }, [Hook.willMove], some (c, g.tileCnt - 1))
        else
          some (g, [Hook.willStall], none)
  else some (g, [], none)

/-- The body of the `MoveTransformComponent` completion callback registered
by `gameTurn`: commit the swap of the clicked tile (list position `c`) and
the void tile (list position `v`), re-check completion, and unlock input. -/
def gameTurnCommit (g : SPGame) (c v : ℕ) : SPGame × List Hook × Bool :=
  let t := g.tiles.getD c defaultTile
  let vt := g.tiles.getD v defaultTile
  let tiles1 := (g.tiles.set c { t with gridCurrent := vt.gridCurrent }).set v
      { vt with gridCurrent := t.gridCurrent }
  let res := checkAndFinish { g with tiles := tiles1 }
  ({ res.1 with lockedInput := false }, res.2.1, res.2.2)

/-- A full interaction step: `gamePlay` followed, when a move was initiated,
by the animation-completion callback that commits it. -/
def gamePlayStep (g : SPGame) (tile : Option ℕ) (seedss : List (ℕ → ℕ)) :
    Option (SPGame × List Hook) :=
  match gamePlay g tile seedss with
  | none => none
  | some (g1, hooks, none) => some (g1, hooks)
  | some (g1, hooks, some (c, v)) =>
      let res := gameTurnCommit g1 c v
      some (res.1, hooks ++ res.2.1)

/-- `resolve`: stop the game, reposition every tile onto its origin index
without animation, and restore the void tile's visibility.  No hook fires. -/
def resolve (g : SPGame) : SPGame × List Hook :=
  let g1 := { g with isRunning := false }
  let g2 := { g1 with
    tiles := g1.tiles.map (fun x => repositionTile g.puzzleShapeY x x.index) }
  (voidTileVisibility g2 true, [])

/-- `reShuffle`: stop the game, adopt the supplied fixed shuffle (validated)
or clear the stored one, and restart via `gamePlay`. -/
def reShuffle (g : SPGame) (fixedShuffleArr : Option (List ℕ))
    (seedss : List (ℕ → ℕ)) : Except String (Option (SPGame × List Hook)) :=
  let g1 := { g with isRunning := false }
  match fixedShuffleArr with
  | some arr =>
      match setfixedShuffleArr g1 arr with
      | Except.error e => Except.error e
      | Except.ok g2 => Except.ok (gamePlayStep g2 none seedss)
  | none => Except.ok (gamePlayStep { g1 with fixedShuffleArr := none } none seedss)

/-- The freshly constructed game state produced by the tile setup loop of
`init`: tile `n` starts on grid cell `gridOfIndex cols n`, the game is not
running, input is unlocked and the void tile is alive. -/
def initGame (rows cols : ℕ) : SPGame :=
  { puzzleShapeX := rows
    puzzleShapeY := cols
    tiles := (List.range (rows * cols)).map (fun n =>
      { index := n, gridOrigin := gridOfIndex cols n, gridCurrent := gridOfIndex cols n })
    isRunning := false
    lockedInput := false
    voidAlive := true
    fixedShuffleArr := none }

/-- `x % 1 === 0` for a JS number, i.e. the value is an integer; exact over
the rationals. -/
def isIntegerJS (q : ℚ) : Bool := q.den == 1

/-- The two puzzle-shape guards at the top of `init`: first
`(puzzleShape.x + puzzleShape.y) % 1 !== 0`, then
`puzzleShape.x < 2 || puzzleShape.y < 2`.  Returns the thrown message. -/
def shapeCheck (x y : ℚ) : Option String :=
  if ¬ isIntegerJS (x + y) = true then
    some "the puzzle shape must contain only integer values"
  else if x < 2 ∨ y < 2 then
    some "the puzzle shape is faulty"
  else none

/-- Well-formedness of a game state: the shape is a genuine puzzle shape,
there is one tile per grid cell ordered by origin index, tile `i` keeps its
construction-time identity (`index = i`, origin cell `gridOfIndex cols i`),
the multiset of current positions is a permutation of the grid cells, and
any stored fixed shuffle is a permutation of the tile indices (established
by `setfixedShuffleArr`'s validation). -/
def WF (g : SPGame) : Prop :=
  2 ≤ g.puzzleShapeX ∧ 2 ≤ g.puzzleShapeY ∧
  g.tiles.length = g.tileCnt ∧
  (∀ i (h : i < g.tiles.length),
    (g.tiles.get ⟨i, h⟩).index = i ∧
    (g.tiles.get ⟨i, h⟩).gridOrigin = gridOfIndex g.puzzleShapeY i) ∧
  (g.tiles.map SPTile.gridCurrent).Perm (g.tiles.map SPTile.gridOrigin) ∧
  (∀ a, g.fixedShuffleArr = some a → a.Perm (List.range g.tileCnt))

/-- The tile list produced by the animation-completion callback of
`gameTurn`: the clicked tile (list position `c`) takes the void tile's
current cell and the void tile (list position `v`) takes the clicked
tile's old cell. -/
def swapTiles (g : SPGame) (c v : ℕ) : List SPTile :=
  (g.tiles.set c
    { g.tiles.getD c defaultTile with
      gridCurrent := (g.tiles.getD v defaultTile).gridCurrent }).set v
    { g.tiles.getD v defaultTile with
      gridCurrent := (g.tiles.getD c defaultTile).gridCurrent }

/-- A concrete well-formed running 2×2 game used to witness the state
machine theorems: tiles 0 and 2 are home, tile 1 sits on the void tile's
origin cell and the void tile (3) sits on tile 1's origin cell. -/
def gRun : SPGame :=
  { puzzleShapeX := 2
    puzzleShapeY := 2
    tiles :=
      [⟨0, ⟨0, 0⟩, ⟨0, 0⟩⟩, ⟨1, ⟨0, 1⟩, ⟨1, 1⟩⟩, ⟨2, ⟨1, 0⟩, ⟨1, 0⟩⟩,
        ⟨3, ⟨1, 1⟩, ⟨0, 1⟩⟩]
    isRunning := true
    lockedInput := false
    voidAlive := false
    fixedShuffleArr := none }

/-- Executable well-formedness check, used to certify concrete states. -/
def WFb (g : SPGame) : Bool :=
  decide (2 ≤ g.puzzleShapeX) && decide (2 ≤ g.puzzleShapeY) &&
  decide (g.tiles.length = g.tileCnt) &&
  decide (∀ i (h : i < g.tiles.length),
    (g.tiles.get ⟨i, h⟩).index = i ∧
    (g.tiles.get ⟨i, h⟩).gridOrigin = gridOfIndex g.puzzleShapeY i) &&
  decide ((g.tiles.map SPTile.gridCurrent).Perm (g.tiles.map SPTile.gridOrigin)) &&
  (match g.fixedShuffleArr with
   | none => true
   | some a => decide (a.Perm (List.range g.tileCnt)))

theorem WF_of_WFb {g : SPGame} (h : WFb g = true) : WF g := by
  unfold WFb at h
  simp only [Bool.and_eq_true, decide_eq_true_eq] at h
  obtain ⟨⟨⟨⟨⟨h1, h2⟩, h3⟩, h4⟩, h5⟩, h6⟩ := h
  refine ⟨h1, h2, h3, h4, h5, ?_⟩
  intro a ha
  rw [ha] at h6
  simpa using h6

/-! ### Helper lemmas about list indexing, prefixes and permutations -/

theorem mem_take_iff_indexOf {α : Type _} [DecidableEq α] (l : List α) (v : α) (p : ℕ) :
    v ∈ l.take p ↔ v ∈ l ∧ List.indexOf v l < p := by
  induction l generalizing p with
  | nil => simp
  | cons x xs ih =>
    cases p with
    | zero => simp
    | succ q =>
      by_cases hvx : v = x
      · subst hvx
        simp [List.indexOf_cons_self]
      · rw [List.take_succ_cons]
        simp only [List.mem_cons, hvx, false_or,
          List.indexOf_cons_ne _ (fun h => hvx h.symm), Nat.succ_lt_succ_iff]
        exact ih q

theorem count_lt_take (arr : List ℕ) (L n : ℕ) (hp : arr.Perm (List.range L))
    (hn : n < L) :
    ((arr.take (List.indexOf n arr)).filter (fun i => i < n)).length
      = ((Finset.range n).filter
          (fun a => List.indexOf a arr < List.indexOf n arr)).card := by
  have hnd : arr.Nodup := hp.nodup_iff.mpr (List.nodup_range L)
  have hmem : ∀ v, v ∈ arr ↔ v < L := fun v => by rw [hp.mem_iff, List.mem_range]
  have hsub : ((arr.take (List.indexOf n arr)).filter (fun i => i < n)).Nodup :=
    ((List.filter_sublist _).trans (List.take_sublist _ _)).nodup hnd
  rw [← List.toFinset_card_of_nodup hsub]
  congr 1
  ext v
  simp only [List.mem_toFinset, List.mem_filter, mem_take_iff_indexOf,
    Finset.mem_filter, Finset.mem_range, decide_eq_true_eq]
  constructor
  · rintro ⟨⟨_, hlt⟩, hvn⟩
    exact ⟨hvn, hlt⟩
  · rintro ⟨hvn, hlt⟩
    exact ⟨⟨(hmem v).mpr (lt_trans hvn hn), hlt⟩, hvn⟩

theorem indexOf_split (arr : List ℕ) (L n : ℕ) (hp : arr.Perm (List.range L))
    (hn : n < L) :
    ((Finset.range n).filter
        (fun a => List.indexOf a arr < List.indexOf n arr)).card
      + ((Finset.range n).filter
          (fun a => List.indexOf n arr < List.indexOf a arr)).card = n := by
  have hmem : ∀ v, v ∈ arr ↔ v < L := fun v => by rw [hp.mem_iff, List.mem_range]
  have key : ∀ a ∈ Finset.range n,
      (¬ List.indexOf a arr < List.indexOf n arr) ↔
        List.indexOf n arr < List.indexOf a arr := by
    intro a ha
    rw [Finset.mem_range] at ha
    have hne : List.indexOf a arr ≠ List.indexOf n arr := by
      intro h
      have := (List.indexOf_inj ((hmem a).mpr (lt_trans ha hn))
        ((hmem n).mpr hn)).mp h
      omega
    omega
  have h := Finset.filter_card_add_filter_neg_card_eq_card
    (s := Finset.range n) (fun a => List.indexOf a arr < List.indexOf n arr)
  rw [Finset.filter_congr key] at h
  simpa using h

theorem sub_count_eq (arr : List ℕ) (L n : ℕ) (hp : arr.Perm (List.range L))
    (hn : n < L) :
    n - ((arr.take (List.indexOf n arr)).filter (fun i => i < n)).length
      = ((Finset.range n).filter
          (fun a => List.indexOf n arr < List.indexOf a arr)).card := by
  rw [count_lt_take arr L n hp hn]
  have := indexOf_split arr L n hp hn
  omega

theorem listsum_map_range (f : ℕ → ℕ) (m : ℕ) :
    ((List.range m).map f).sum = ∑ b in Finset.range m, f b := by
  induction m with
  | zero => simp
  | succ k ih =>
    rw [List.range_succ, Finset.sum_range_succ]
    simp [ih]

theorem listsum_map_range'_one (f : ℕ → ℕ) (m : ℕ) (hf : f 0 = 0) :
    ((List.range' 1 m).map f).sum = ∑ b in Finset.range (m + 1), f b := by
  have h : List.range (m + 1) = 0 :: List.range' 1 m := by
    rw [List.range_eq_range', List.range'_succ]
  rw [← listsum_map_range f (m + 1), h]
  simp [hf]

theorem permutationSum_eq_nonVoidInversions (L : ℕ) (arr : List ℕ)
    (hp : arr.Perm (List.range L)) (hL : 2 ≤ L) :
    permutationSum arr = nonVoidInversions arr := by
  have hlen : arr.length = L := by rw [hp.length_eq, List.length_range]
  unfold permutationSum nonVoidInversions
  rw [listsum_map_range'_one _ _ (by simp)]
  have h1 : arr.length - 1 - 1 + 1 = arr.length - 1 := by omega
  rw [h1]
  refine Finset.sum_congr rfl ?_
  intro b hb
  rw [Finset.mem_range] at hb
  exact sub_count_eq arr L b hp (by omega)

/-- C1: for every puzzle shape with `rows ≥ 2` and `cols ≥ 2` and every
arrangement that is a permutation of `[0, rows*cols)`, `permutationProof`'s
accumulator has the parity of the number of inversions among the non-void
tiles, and the checker returns `true` iff either `cols` is odd and that
inversion count is even, or `cols` is even and the inversion count plus the
void tile's row counted from the bottom
(`rows - List.indexOf (rows*cols - 1) arr / cols`) is odd. -/
theorem permutationProof_parity_rule (rows cols : ℕ) (arr : List ℕ)
    (hrows : 2 ≤ rows) (hcols : 2 ≤ cols)
    (hp : arr.Perm (List.range (rows * cols))) :
    permutationSum arr % 2 = nonVoidInversions arr % 2 ∧
    (permutationProof rows cols arr = true ↔
      ((cols % 2 = 1 ∧ nonVoidInversions arr % 2 = 0) ∨
       (cols % 2 = 0 ∧
         (nonVoidInversions arr
           + (rows - List.indexOf (rows * cols - 1) arr / cols)) % 2 = 1))) := by
  have hL : 2 ≤ rows * cols := le_trans hrows (Nat.le_mul_of_pos_right rows (by omega))
  have hS := permutationSum_eq_nonVoidInversions (rows * cols) arr hp hL
  have hlen : arr.length = rows * cols := by rw [hp.length_eq, List.length_range]
  refine ⟨by rw [hS], ?_⟩
  by_cases hodd : cols % 2 = 1
  · simp [permutationProof, hodd, hS, hlen]
  · have heven : cols % 2 = 0 := by omega
    simp [permutationProof, hodd, heven, hS, hlen]

/-- Witness for C1 at the spec's example shape (2,3) and fixed shuffle
`[0,1,2,3,5,4]`. -/
theorem permutationProof_parity_rule_witness :
    permutationSum [0,1,2,3,5,4] % 2 = nonVoidInversions [0,1,2,3,5,4] % 2 ∧
    (permutationProof 2 3 [0,1,2,3,5,4] = true ↔
      ((3 % 2 = 1 ∧ nonVoidInversions [0,1,2,3,5,4] % 2 = 0) ∨
       (3 % 2 = 0 ∧
         (nonVoidInversions [0,1,2,3,5,4]
           + (2 - List.indexOf (2 * 3 - 1) [0,1,2,3,5,4] / 3)) % 2 = 1))) :=
  permutationProof_parity_rule 2 3 [0,1,2,3,5,4] (by decide) (by decide) (by decide)

theorem getD_set_self {α : Type _} (l : List α) (i : ℕ) (a d : α)
    (h : i < l.length) : (l.set i a).getD i d = a := by
  rw [List.getD_eq_getElem?_getD, List.getElem?_set_self]
  · simp
  · exact h

theorem getD_set_ne {α : Type _} (l : List α) {i j : ℕ} (hij : i ≠ j) (a d : α) :
    (l.set i a).getD j d = l.getD j d := by
  rw [List.getD_eq_getElem?_getD, List.getD_eq_getElem?_getD,
    List.getElem?_set_ne hij]

theorem set_get_self {α : Type _} (l : List α) (i : ℕ) (h : i < l.length) :
    l.set i (l.get ⟨i, h⟩) = l := by
  apply List.ext_getElem (by simp)
  intro n h1 h2
  rcases eq_or_ne i n with rfl | hne
  · rw [List.getElem_set_self]
    simp [List.get_eq_getElem]
  · rw [List.getElem_set_ne hne]

theorem cons_get_set_perm {α : Type _} (t : List α) (m : ℕ) (hm : m < t.length)
    (a : α) : (t.get ⟨m, hm⟩ :: t.set m a).Perm (a :: t) := by
  induction t generalizing m with
  | nil => simp at hm
  | cons b s ih =>
    cases m with
    | zero => simpa using List.Perm.swap a b s
    | succ k =>
      have hk : k < s.length := by simpa using hm
      have he : ((b :: s).get ⟨k + 1, hm⟩ :: (b :: s).set (k + 1) a)
          = (s.get ⟨k, hk⟩ :: b :: s.set k a) := by
        rw [List.get_cons_succ, List.set_cons_succ]
      rw [he]
      refine List.Perm.trans (List.Perm.swap _ _ _) ?_
      exact List.Perm.trans ((ih k hk).cons b) (List.Perm.swap _ _ _)

theorem set_set_perm {α : Type _} (l : List α) (i j : ℕ) (hi : i < l.length)
    (hj : j < l.length) :
    ((l.set i (l.get ⟨j, hj⟩)).set j (l.get ⟨i, hi⟩)).Perm l := by
  induction l generalizing i j with
  | nil => simp at hi
  | cons x t ih =>
    cases i with
    | zero =>
      cases j with
      | zero => simp
      | succ k =>
        have hk : k < t.length := by simpa using hj
        have h := cons_get_set_perm t k hk x
        simpa using h
    | succ m =>
      cases j with
      | zero =>
        have hm : m < t.length := by simpa using hi
        have h := cons_get_set_perm t m hm x
        simpa using h
      | succ k =>
        have hm : m < t.length := by simpa using hi
        have hk : k < t.length := by simpa using hj
        simpa using (ih m k hm hk).cons x

theorem foldl_swapstep_perm (seeds : ℕ → ℕ) (is : List ℕ) :
    ∀ a : List ℕ, (∀ i ∈ is, i < a.length) →
    (is.foldl (fun a i =>
      (a.set i (a.getD (seeds i % (i + 1)) 0)).set (seeds i % (i + 1))
        (a.getD i 0)) a).Perm a := by
  induction is with
  | nil => intro a _; exact List.Perm.refl a
  | cons i is ih =>
    intro a h
    have hi : i < a.length := h i (by simp)
    have hj : seeds i % (i + 1) < a.length :=
      lt_of_le_of_lt (Nat.le_of_lt_succ (Nat.mod_lt _ (by omega))) hi
    have hstep : ((a.set i (a.getD (seeds i % (i + 1)) 0)).set (seeds i % (i + 1))
        (a.getD i 0)).Perm a := by
      have hperm := set_set_perm a i (seeds i % (i + 1)) hi hj
      rwa [← List.getD_eq_get a 0 hj, ← List.getD_eq_get a 0 hi] at hperm
    have hlen : ((a.set i (a.getD (seeds i % (i + 1)) 0)).set (seeds i % (i + 1))
        (a.getD i 0)).length = a.length := by simp
    refine List.Perm.trans (ih _ ?_) hstep
    intro k hk
    rw [hlen]
    exact h k (List.mem_cons_of_mem _ hk)

/-- The in-place Fisher–Yates loop only permutes the array. -/
theorem shuffle_perm (arr : List ℕ) (seeds : ℕ → ℕ) :
    (shuffle arr seeds).Perm arr := by
  unfold shuffle
  apply foldl_swapstep_perm
  intro i hi
  rw [List.mem_reverse, List.mem_range'] at hi
  obtain ⟨k, hk, rfl⟩ := hi
  omega

/-- Every candidate produced by the random branch of `getShuffleArray` is a
permutation of the identity arrangement. -/
theorem getShuffleArray_random_perm (g : SPGame) (seedss : List (ℕ → ℕ))
    (arr : List ℕ) (hfix : g.fixedShuffleArr = none)
    (h : getShuffleArray g seedss = some arr) :
    arr.Perm (List.range g.tileCnt) := by
  unfold getShuffleArray at h
  rw [hfix] at h
  have hmem := List.mem_of_find?_eq_some h
  rw [List.mem_map] at hmem
  obtain ⟨s, _, rfl⟩ := hmem
  exact shuffle_perm _ s

theorem indexOf_map_range_perm (arr : List ℕ) (n : ℕ)
    (hp : arr.Perm (List.range n)) :
    ((List.range n).map (fun i => List.indexOf i arr)).Perm (List.range n) := by
  have hnd : arr.Nodup := hp.nodup_iff.mpr (List.nodup_range n)
  have hmem : ∀ v, v ∈ arr ↔ v < n := fun v => by rw [hp.mem_iff, List.mem_range]
  have hlen : arr.length = n := by rw [hp.length_eq, List.length_range]
  apply List.Subperm.perm_of_length_le ?_ (by simp)
  apply List.Nodup.subperm ?_ ?_
  · refine List.Nodup.map_on ?_ (List.nodup_range n)
    intro x hx y hy hxy
    rw [List.mem_range] at hx hy
    exact (List.indexOf_inj ((hmem x).mpr hx) ((hmem y).mpr hy)).mp hxy
  · intro v hv
    rw [List.mem_map] at hv
    obtain ⟨i, hi, rfl⟩ := hv
    rw [List.mem_range] at hi
    rw [List.mem_range, ← hlen]
    exact List.indexOf_lt_length.mpr ((hmem i).mpr hi)

theorem gridOfIndex_injective (cols : ℕ) (hc : 0 < cols) :
    Function.Injective (gridOfIndex cols) := by
  intro a b h
  simp only [gridOfIndex, Vec2.mk.injEq, Nat.cast_inj] at h
  obtain ⟨h1, h2⟩ := h
  have ha := Nat.div_add_mod a cols
  have hb := Nat.div_add_mod b cols
  rw [h1, h2] at ha
  omega

theorem WF_origins (g : SPGame) (h : WF g) :
    g.tiles.map SPTile.gridOrigin
      = (List.range g.tileCnt).map (gridOfIndex g.puzzleShapeY) := by
  obtain ⟨-, -, h3, h4, -, -⟩ := h
  apply List.ext_getElem (by simp [h3])
  intro n h1 h2
  rw [List.getElem_map, List.getElem_map, List.getElem_range]
  have hn : n < g.tiles.length := by simpa using h1
  have h5 := (h4 n hn).2
  rw [List.get_eq_getElem] at h5
  exact h5

theorem WF_origins_nodup (g : SPGame) (h : WF g) :
    (g.tiles.map SPTile.gridOrigin).Nodup := by
  have h2 : 0 < g.puzzleShapeY := by
    obtain ⟨-, h2, -⟩ := h
    omega
  rw [WF_origins g h]
  exact List.Nodup.map (gridOfIndex_injective _ h2) (List.nodup_range _)

theorem WF_currents_nodup (g : SPGame) (h : WF g) :
    (g.tiles.map SPTile.gridCurrent).Nodup := by
  have h5 := h.2.2.2.2.1
  exact h5.nodup_iff.mpr (WF_origins_nodup g h)

theorem WF_tileCnt (g : SPGame) (h : WF g) : 4 ≤ g.tileCnt := by
  obtain ⟨h1, h2, -⟩ := h
  have := Nat.mul_le_mul h1 h2
  simpa [SPGame.tileCnt] using this

theorem checkTilePosition_iff (t : SPTile) :
    checkTilePosition t = true ↔ t.gridCurrent = t.gridOrigin := by
  cases t with
  | mk i o c =>
    cases o
    cases c
    simp [checkTilePosition, Vec2.mk.injEq]

theorem voidTileVisibility_eq (g : SPGame) (e : Bool) :
    voidTileVisibility g e = { g with voidAlive := e } := by
  cases g with
  | mk px py tiles run lock alive fix =>
    cases e <;> cases alive <;> simp [voidTileVisibility]

/-- Pigeonhole step behind `checkAndFinish`: once the void tile and all
tiles of `tiles.slice(0, tileCnt - 2)` sit on their origin cells, the
remaining tile (list position `tileCnt - 2`) must as well, because the
current positions form a permutation of the origin cells. -/
theorem tile_at_origin_of_checks (g : SPGame) (h : WF g)
    (hvoid : (g.voidTile).gridCurrent = (g.voidTile).gridOrigin)
    (hrest : ∀ t ∈ g.tiles.take (g.tileCnt - 2), t.gridCurrent = t.gridOrigin) :
    ∀ t ∈ g.tiles, t.gridCurrent = t.gridOrigin := by
  have hWF := h
  obtain ⟨h1, h2, h3, h4, h5, h6⟩ := h
  have hcnt : 4 ≤ g.tileCnt := WF_tileCnt g hWF
  have hchecked : ∀ j (hj : j < g.tiles.length), j ≠ g.tileCnt - 2 →
      (g.tiles.get ⟨j, hj⟩).gridCurrent = (g.tiles.get ⟨j, hj⟩).gridOrigin := by
    intro j hj hne
    rcases lt_or_ge j (g.tileCnt - 2) with hlt | hge
    · have hjt : j < (g.tiles.take (g.tileCnt - 2)).length := by
        rw [List.length_take]
        exact lt_min hlt hj
      have he : (g.tiles.take (g.tileCnt - 2)).get ⟨j, hjt⟩ = g.tiles.get ⟨j, hj⟩ := by
        simp [List.get_eq_getElem, List.getElem_take]
      refine hrest _ ?_
      rw [← he]
      exact List.get_mem _ _ _
    · have hj1 : j = g.tileCnt - 1 := by omega
      subst hj1
      have hv : g.voidTile = g.tiles.get ⟨g.tileCnt - 1, hj⟩ := by
        rw [SPGame.voidTile, List.getD_eq_get _ _ hj]
      rw [← hv]
      exact hvoid
  have hk : g.tileCnt - 2 < g.tiles.length := by omega
  have hmain : ∀ j (hj : j < g.tiles.length),
      (g.tiles.get ⟨j, hj⟩).gridCurrent = (g.tiles.get ⟨j, hj⟩).gridOrigin := by
    intro j hj
    rcases eq_or_ne j (g.tileCnt - 2) with heq | hne
    · have hcnodup := WF_currents_nodup g hWF
      have hmemc : (g.tiles.get ⟨j, hj⟩).gridCurrent ∈ g.tiles.map SPTile.gridCurrent := by
        rw [List.mem_map]
        exact ⟨_, List.get_mem _ _ _, rfl⟩
      have hmemo : (g.tiles.get ⟨j, hj⟩).gridCurrent ∈ g.tiles.map SPTile.gridOrigin :=
        h5.mem_iff.mp hmemc
      obtain ⟨⟨j2, hj2⟩, hj2e⟩ := List.mem_iff_get.mp hmemo
      have hj2l : j2 < g.tiles.length := by simpa using hj2
      have hj2o : (g.tiles.get ⟨j2, hj2l⟩).gridOrigin
          = (g.tiles.get ⟨j, hj⟩).gridCurrent := by
        rw [← hj2e, List.get_eq_getElem, List.get_eq_getElem, List.getElem_map]
      rcases eq_or_ne j2 j with rfl | hne2
      · rw [← hj2o]
      · exfalso
        have hj2c : (g.tiles.get ⟨j2, hj2l⟩).gridCurrent
            = (g.tiles.get ⟨j, hj⟩).gridCurrent := by
          rw [← hj2o]
          exact hchecked j2 hj2l (fun hh => hne2 (hh.trans heq.symm))
        have hgc : (g.tiles.map SPTile.gridCurrent).get
              ⟨j2, by simpa using hj2l⟩
            = (g.tiles.map SPTile.gridCurrent).get ⟨j, by simpa using hj⟩ := by
          simp only [List.get_eq_getElem, List.getElem_map] at hj2c ⊢
          exact hj2c
        have := (List.Nodup.get_inj_iff hcnodup).mp hgc
        apply hne2
        simpa using congrArg Fin.val this
    · exact hchecked j hj hne
  intro t ht
  obtain ⟨⟨j, hj⟩, rfl⟩ := List.mem_iff_get.mp ht
  exact hmain j hj

theorem voidTile_mem (g : SPGame) (h : WF g) : g.voidTile ∈ g.tiles := by
  have h3 := h.2.2.1
  have hcnt := WF_tileCnt g h
  have hlt : g.tileCnt - 1 < g.tiles.length := by omega
  rw [SPGame.voidTile, List.getD_eq_get _ _ hlt]
  exact List.get_mem _ _ _

theorem checkAndFinish_verdict (g : SPGame) (h : WF g) :
    (checkAndFinish g).2.2 = true ↔ ∀ t ∈ g.tiles, t.gridCurrent = t.gridOrigin := by
  constructor
  · intro hres
    unfold checkAndFinish at hres
    by_cases hv : checkTilePosition g.voidTile = true
    · rw [if_pos hv] at hres
      by_cases hr : ((g.tiles.take (g.tileCnt - 2)).map checkTilePosition).all
          (fun x => x == true) = true
      · have hrest : ∀ t ∈ g.tiles.take (g.tileCnt - 2),
            t.gridCurrent = t.gridOrigin := by
          intro t ht
          have hx := List.all_eq_true.mp hr _ (List.mem_map_of_mem _ ht)
          rw [beq_iff_eq] at hx
          exact (checkTilePosition_iff t).mp hx
        exact tile_at_origin_of_checks g h ((checkTilePosition_iff _).mp hv) hrest
      · rw [if_neg hr] at hres
        simp at hres
    · rw [if_neg hv] at hres
      simp at hres
  · intro hall
    have hv : checkTilePosition g.voidTile = true :=
      (checkTilePosition_iff _).mpr (hall _ (voidTile_mem g h))
    have hr : ((g.tiles.take (g.tileCnt - 2)).map checkTilePosition).all
        (fun x => x == true) = true := by
      apply List.all_eq_true.mpr
      intro x hx
      rw [List.mem_map] at hx
      obtain ⟨t, ht, rfl⟩ := hx
      rw [beq_iff_eq]
      exact (checkTilePosition_iff t).mpr (hall t (List.mem_of_mem_take ht))
    unfold checkAndFinish
    rw [if_pos hv, if_pos hr]

theorem checkAndFinish_of_true (g : SPGame)
    (h : (checkAndFinish g).2.2 = true) :
    checkAndFinish g
      = ({ g with voidAlive := true, isRunning := false }, [Hook.finish], true) := by
  unfold checkAndFinish at h ⊢
  by_cases hv : checkTilePosition g.voidTile = true
  · rw [if_pos hv] at h ⊢
    by_cases hr : ((g.tiles.take (g.tileCnt - 2)).map checkTilePosition).all
        (fun x => x == true) = true
    · rw [if_pos hr, voidTileVisibility_eq]
    · rw [if_neg hr] at h
      simp at h
  · rw [if_neg hv] at h
    simp at h

theorem checkAndFinish_of_false (g : SPGame)
    (h : (checkAndFinish g).2.2 = false) :
    checkAndFinish g = (g, [], false) := by
  unfold checkAndFinish at h ⊢
  by_cases hv : checkTilePosition g.voidTile = true
  · rw [if_pos hv] at h ⊢
    by_cases hr : ((g.tiles.take (g.tileCnt - 2)).map checkTilePosition).all
        (fun x => x == true) = true
    · rw [if_pos hr] at h
      simp at h
    · rw [if_neg hr]
  · rw [if_neg hv]

theorem checkAndFinish_void_off (g : SPGame)
    (hv : checkTilePosition g.voidTile = false) :
    checkAndFinish g = (g, [], false) := by
  unfold checkAndFinish
  rw [if_neg (by rw [hv]; exact Bool.false_ne_true)]

/-- C2: after a committed move (any well-formed state), `checkAndFinish`
reports completion — firing the `finish` hook, restoring the void tile's
visibility and clearing `isRunning` — exactly when every tile's
`gridCurrent` equals its `gridOrigin`; it checks the void tile first and
short-circuits to a negative verdict, touching nothing, when the void tile
is off its origin. -/
theorem checkAndFinish_spec (g : SPGame) (h : WF g) :
    ((checkAndFinish g).2.2 = true ↔ ∀ t ∈ g.tiles, t.gridCurrent = t.gridOrigin) ∧
    ((checkAndFinish g).2.2 = true →
      checkAndFinish g
        = ({ g with voidAlive := true, isRunning := false }, [Hook.finish], true)) ∧
    ((checkAndFinish g).2.2 = false → checkAndFinish g = (g, [], false)) ∧
    (checkTilePosition g.voidTile = false → checkAndFinish g = (g, [], false)) :=
  ⟨checkAndFinish_verdict g h, checkAndFinish_of_true g,
    checkAndFinish_of_false g, checkAndFinish_void_off g⟩

/-- Witness for C2 at the concrete state `gRun`. -/
theorem checkAndFinish_spec_witness :
    ((checkAndFinish gRun).2.2 = true ↔
      ∀ t ∈ gRun.tiles, t.gridCurrent = t.gridOrigin) ∧
    ((checkAndFinish gRun).2.2 = true →
      checkAndFinish gRun
        = ({ gRun with voidAlive := true, isRunning := false }, [Hook.finish], true)) ∧
    ((checkAndFinish gRun).2.2 = false → checkAndFinish gRun = (gRun, [], false)) ∧
    (checkTilePosition gRun.voidTile = false →
      checkAndFinish gRun = (gRun, [], false)) :=
  checkAndFinish_spec gRun (WF_of_WFb (by decide))

/-- C3: `setfixedShuffleArr` performs exactly three checks in order — not a
shuffle, not a permutation of all tile indices, not solvable — each failing
fast with its own distinct error, stores the candidate only when all three
pass, and leaves the previously stored fixed shuffle unchanged whenever it
throws. -/
theorem setfixedShuffleArr_spec (g : SPGame) (arr : List ℕ) :
    (arr = List.range g.tileCnt →
      setfixedShuffleArr g arr
        = Except.error "the provided fixed shuffle array does not contain a shuffle") ∧
    (arr ≠ List.range g.tileCnt →
      arr.mergeSort (fun n1 n2 => n1 ≤ n2) ≠ List.range g.tileCnt →
      setfixedShuffleArr g arr
        = Except.error
          "the provided fixed shuffle array does not contain all required tile indices") ∧
    (arr ≠ List.range g.tileCnt →
      arr.mergeSort (fun n1 n2 => n1 ≤ n2) = List.range g.tileCnt →
      permutationProof g.puzzleShapeX g.puzzleShapeY arr = false →
      setfixedShuffleArr g arr
        = Except.error
          "the provided fixed shuffle array does not provide a solvable shuffle") ∧
    (arr ≠ List.range g.tileCnt →
      arr.mergeSort (fun n1 n2 => n1 ≤ n2) = List.range g.tileCnt →
      permutationProof g.puzzleShapeX g.puzzleShapeY arr = true →
      setfixedShuffleArr g arr = Except.ok { g with fixedShuffleArr := some arr }) ∧
    (("the provided fixed shuffle array does not contain a shuffle" : String)
        ≠ "the provided fixed shuffle array does not contain all required tile indices" ∧
      ("the provided fixed shuffle array does not contain a shuffle" : String)
        ≠ "the provided fixed shuffle array does not provide a solvable shuffle" ∧
      ("the provided fixed shuffle array does not contain all required tile indices" : String)
        ≠ "the provided fixed shuffle array does not provide a solvable shuffle") ∧
    (∀ e, setfixedShuffleArr g arr = Except.error e →
      (trySetfixedShuffleArr g arr).fixedShuffleArr = g.fixedShuffleArr) := by
  refine ⟨?_, ?_, ?_, ?_, ⟨by decide, by decide, by decide⟩, ?_⟩
  · intro h1
    simp [setfixedShuffleArr, h1]
  · intro h1 h2
    simp [setfixedShuffleArr, h1, h2]
  · intro h1 h2 h3
    simp [setfixedShuffleArr, h1, h2, h3]
  · intro h1 h2 h3
    simp [setfixedShuffleArr, h1, h2, h3]
  · intro e he
    simp [trySetfixedShuffleArr, he]

/-- Witness for C3: the spec's (2,3) example, identity candidate. -/
theorem setfixedShuffleArr_spec_witness :
    setfixedShuffleArr (initGame 2 3) [0, 1, 2, 3, 4, 5]
      = Except.error "the provided fixed shuffle array does not contain a shuffle" :=
  (setfixedShuffleArr_spec (initGame 2 3) [0, 1, 2, 3, 4, 5]).1 (by decide)

theorem isIntegerJS_of_den_one (x y : ℚ) (hx : isIntegerJS x = true)
    (hy : isIntegerJS y = true) : isIntegerJS (x + y) = true := by
  unfold isIntegerJS at *
  rw [beq_iff_eq] at hx hy ⊢
  have hx2 : (x.num : ℚ) = x := (Rat.den_eq_one_iff x).mp hx
  have hy2 : (y.num : ℚ) = y := (Rat.den_eq_one_iff y).mp hy
  have h : ((x.num + y.num : ℤ) : ℚ) = x + y := by
    push_cast [hx2, hy2]
    ring
  rw [← h, Rat.den_intCast]

/-- C4 counterexample: the shape (2.5, 2.5) has non-integer components, yet
the shape check passes, because the code only tests the integrality of the
sum `puzzleShape.x + puzzleShape.y`. -/
theorem shapeCheck_counterexample :
    shapeCheck (5 / 2 : ℚ) (5 / 2 : ℚ) = none ∧ isIntegerJS (5 / 2 : ℚ) = false := by
  have hni : isIntegerJS (5 / 2 : ℚ) = false := by
    unfold isIntegerJS
    rw [beq_eq_false_iff_ne]
    intro h
    have h2 := (Rat.den_eq_one_iff _).mp h
    have h3 : (2 : ℚ) * ((5 / 2 : ℚ).num : ℚ) = 5 := by
      rw [h2]
      norm_num
    have h4 : (2 : ℤ) * (5 / 2 : ℚ).num = 5 := by exact_mod_cast h3
    omega
  refine ⟨?_, hni⟩
  have hsum : (5 / 2 : ℚ) + 5 / 2 = ((5 : ℤ) : ℚ) := by norm_num
  unfold shapeCheck
  rw [if_neg (by rw [hsum]; simp [isIntegerJS, Rat.den_intCast])]
  rw [if_neg (by push_neg; constructor <;> norm_num)]

/-- C4 (amended): the constructor's shape check throws exactly when the sum
`x + y` is not an integer, or `x < 2`, or `y < 2`; in particular every
shape with integer components both at least 2 passes, but componentwise
integrality is not checked. -/
theorem shapeCheck_spec (x y : ℚ) :
    ((shapeCheck x y).isSome = true ↔
      (¬ isIntegerJS (x + y) = true ∨ x < 2 ∨ y < 2)) ∧
    (isIntegerJS x = true → isIntegerJS y = true → 2 ≤ x → 2 ≤ y →
      shapeCheck x y = none) := by
  constructor
  · unfold shapeCheck
    by_cases h1 : ¬ isIntegerJS (x + y) = true
    · rw [if_pos h1]
      simp [h1]
    · rw [if_neg h1]
      by_cases h2 : x < 2 ∨ y < 2
      · rw [if_pos h2]
        simp [h1, h2]
      · rw [if_neg h2]
        simp [h1, h2]
  · intro hx hy h2x h2y
    have hsum := isIntegerJS_of_den_one x y hx hy
    unfold shapeCheck
    rw [if_neg (by simp [hsum])]
    rw [if_neg (by push_neg; constructor <;> linarith)]

/-- Witness for C4's amended theorem at the valid shape (2, 3). -/
theorem shapeCheck_spec_witness : shapeCheck 2 3 = none :=
  (shapeCheck_spec 2 3).2 (by norm_num [isIntegerJS])
    (by norm_num [isIntegerJS]) (by norm_num) (by norm_num)

theorem checkAndFinish_fields (g : SPGame) :
    (checkAndFinish g).1.tiles = g.tiles ∧
    (checkAndFinish g).1.puzzleShapeX = g.puzzleShapeX ∧
    (checkAndFinish g).1.puzzleShapeY = g.puzzleShapeY ∧
    (checkAndFinish g).1.fixedShuffleArr = g.fixedShuffleArr ∧
    (checkAndFinish g).1.lockedInput = g.lockedInput := by
  simp only [checkAndFinish]
  split_ifs <;> simp [voidTileVisibility_eq]

theorem WF_congr (g g2 : SPGame) (h : WF g)
    (ht : g2.tiles = g.tiles) (hx : g2.puzzleShapeX = g.puzzleShapeX)
    (hy : g2.puzzleShapeY = g.puzzleShapeY)
    (hf : g2.fixedShuffleArr = g.fixedShuffleArr) : WF g2 := by
  obtain ⟨h1, h2, h3, h4, h5, h6⟩ := h
  cases g2 with
  | mk px py t r l v f =>
    simp only at ht hx hy hf
    subst ht
    subst hx
    subst hy
    subst hf
    exact ⟨h1, h2, h3, h4, h5, h6⟩

theorem gamePlay_start_eq (g : SPGame) (click : Option ℕ) (seedss : List (ℕ → ℕ))
    (arr : List ℕ) (hrun : g.isRunning = false)
    (hget : getShuffleArray g seedss = some arr) :
    gamePlay g click seedss
      = some ({ g with
          voidAlive := false
          tiles := g.tiles.map (fun x =>
            repositionTile g.puzzleShapeY x (List.indexOf x.index arr))
          isRunning := true }, [Hook.start], none) := by
  unfold gamePlay
  rw [hrun, hget]
  simp [voidTileVisibility_eq]

theorem gamePlayStep_start_eq (g : SPGame) (click : Option ℕ)
    (seedss : List (ℕ → ℕ)) (arr : List ℕ) (hrun : g.isRunning = false)
    (hget : getShuffleArray g seedss = some arr) :
    gamePlayStep g click seedss
      = some ({ g with
          voidAlive := false
          tiles := g.tiles.map (fun x =>
            repositionTile g.puzzleShapeY x (List.indexOf x.index arr))
          isRunning := true }, [Hook.start]) := by
  unfold gamePlayStep
  rw [gamePlay_start_eq g click seedss arr hrun hget]

theorem gamePlay_move_eq (g : SPGame) (c : ℕ) (seedss : List (ℕ → ℕ))
    (hrun : g.isRunning = true) (hlock : g.lockedInput = false)
    (hadj : (g.voidTile.gridCurrent.subtract
      ((g.tiles.getD c defaultTile).gridCurrent)).lengthSquared = 1) :
    gamePlay g (some c) seedss
      = some ({ g with lockedInput := true }, [Hook.willMove],
          some (c, g.tileCnt - 1)) := by
  unfold gamePlay
  rw [hrun, hlock]
  rw [List.getD_eq_getElem?_getD] at hadj
  simp [hadj]

theorem gamePlay_stall_eq (g : SPGame) (c : ℕ) (seedss : List (ℕ → ℕ))
    (hrun : g.isRunning = true) (hlock : g.lockedInput = false)
    (hnadj : (g.voidTile.gridCurrent.subtract
      ((g.tiles.getD c defaultTile).gridCurrent)).lengthSquared ≠ 1) :
    gamePlay g (some c) seedss = some (g, [Hook.willStall], none) := by
  unfold gamePlay
  rw [hrun, hlock]
  rw [List.getD_eq_getElem?_getD] at hnadj
  simp [hnadj]

theorem gamePlay_locked_eq (g : SPGame) (click : Option ℕ)
    (seedss : List (ℕ → ℕ)) (hrun : g.isRunning = true)
    (hlock : g.lockedInput = true) :
    gamePlay g click seedss = some (g, [], none) := by
  unfold gamePlay
  rw [hrun, hlock]
  cases click <;> simp

theorem WF_initGame (rows cols : ℕ) (hr : 2 ≤ rows) (hc : 2 ≤ cols) :
    WF (initGame rows cols) := by
  refine ⟨hr, hc, by simp [initGame, SPGame.tileCnt], ?_, ?_, ?_⟩
  · intro i hi
    have hi2 : i < rows * cols := by simpa [initGame] using hi
    constructor <;>
      simp [initGame, List.get_eq_getElem, List.getElem_map, List.getElem_range]
  · have h : ((initGame rows cols).tiles.map SPTile.gridCurrent)
        = ((initGame rows cols).tiles.map SPTile.gridOrigin) := by
      simp [initGame, List.map_map, Function.comp]
    rw [h]
  · intro a ha
    simp [initGame] at ha

theorem resolve_eq (g : SPGame) :
    resolve g = ({ g with
      tiles := g.tiles.map (fun x => repositionTile g.puzzleShapeY x x.index)
      isRunning := false
      voidAlive := true }, []) := by
  simp only [resolve]
  rw [voidTileVisibility_eq]

theorem resolve_tiles_at_origin (g : SPGame) (h : WF g) :
    ∀ t ∈ (resolve g).1.tiles, t.gridCurrent = t.gridOrigin := by
  have h4 := h.2.2.2.1
  rw [resolve_eq]
  intro t ht
  simp only [List.mem_map] at ht
  obtain ⟨x, hx, rfl⟩ := ht
  obtain ⟨⟨j, hj⟩, rfl⟩ := List.mem_iff_get.mp hx
  have h44 := h4 j hj
  simp only [List.get_eq_getElem] at h44
  simp [repositionTile, h44.1, h44.2]

theorem WF_after_resolve (g : SPGame) (h : WF g) : WF (resolve g).1 := by
  have hWF := h
  obtain ⟨h1, h2, h3, h4, h5, h6⟩ := h
  rw [resolve_eq]
  refine ⟨h1, h2, by simp only [List.length_map]; exact h3, ?_, ?_, ?_⟩
  · intro i hi
    have hi2 : i < g.tiles.length := by simpa using hi
    have h44 := h4 i hi2
    simp only [List.get_eq_getElem, List.getElem_map, repositionTile]
    simp only [List.get_eq_getElem] at h44
    exact ⟨h44.1, h44.2⟩
  · have hcur : ((g.tiles.map (fun x => repositionTile g.puzzleShapeY x x.index)).map
        SPTile.gridCurrent) = g.tiles.map SPTile.gridOrigin := by
      apply List.ext_getElem (by simp)
      intro n hn1 hn2
      simp only [List.getElem_map, repositionTile]
      have h44 := h4 n (by simpa using hn2)
      simp only [List.get_eq_getElem] at h44
      rw [h44.1, h44.2]
    have horig : ((g.tiles.map (fun x => repositionTile g.puzzleShapeY x x.index)).map
        SPTile.gridOrigin) = g.tiles.map SPTile.gridOrigin := by
      apply List.ext_getElem (by simp)
      intro n hn1 hn2
      simp [repositionTile]
    rw [hcur, horig]
  · intro a ha
    exact h6 a ha

theorem WF_after_start (g : SPGame) (h : WF g) (arr : List ℕ)
    (hp : arr.Perm (List.range g.tileCnt)) :
    WF { g with
      voidAlive := false
      tiles := g.tiles.map (fun x =>
        repositionTile g.puzzleShapeY x (List.indexOf x.index arr))
      isRunning := true } := by
  have hWF := h
  obtain ⟨h1, h2, h3, h4, h5, h6⟩ := h
  refine ⟨h1, h2, by simp only [List.length_map]; exact h3, ?_, ?_, ?_⟩
  · intro i hi
    have hi2 : i < g.tiles.length := by simpa using hi
    have h44 := h4 i hi2
    simp only [List.get_eq_getElem, List.getElem_map, repositionTile]
    simp only [List.get_eq_getElem] at h44
    exact ⟨h44.1, h44.2⟩
  · have hcur : ((g.tiles.map (fun x =>
        repositionTile g.puzzleShapeY x (List.indexOf x.index arr))).map
          SPTile.gridCurrent)
        = (List.range g.tileCnt).map
            (fun i => gridOfIndex g.puzzleShapeY (List.indexOf i arr)) := by
      apply List.ext_getElem (by simp [h3])
      intro n hn1 hn2
      simp only [List.getElem_map, List.getElem_range, repositionTile]
      have h44 := h4 n (by simpa using hn1)
      simp only [List.get_eq_getElem] at h44
      rw [h44.1]
    have horig : ((g.tiles.map (fun x =>
        repositionTile g.puzzleShapeY x (List.indexOf x.index arr))).map
          SPTile.gridOrigin) = g.tiles.map SPTile.gridOrigin := by
      apply List.ext_getElem (by simp)
      intro n hn1 hn2
      simp [repositionTile]
    rw [hcur, horig, WF_origins g hWF]
    have hperm := (indexOf_map_range_perm arr g.tileCnt hp).map
      (gridOfIndex g.puzzleShapeY)
    rw [List.map_map] at hperm
    simpa [Function.comp] using hperm
  · intro a ha
    exact h6 a ha

theorem gameTurnCommit_eq (g : SPGame) (c v : ℕ) :
    gameTurnCommit g c v
      = ({ (checkAndFinish { g with tiles := swapTiles g c v }).1 with
            lockedInput := false },
          (checkAndFinish { g with tiles := swapTiles g c v }).2.1,
          (checkAndFinish { g with tiles := swapTiles g c v }).2.2) := by
  simp only [gameTurnCommit, swapTiles]

theorem WF_after_swap (g : SPGame) (h : WF g) (c v : ℕ)
    (hc : c < g.tiles.length) (hv : v < g.tiles.length) (hcv : c ≠ v) :
    WF { g with tiles := swapTiles g c v } := by
  have hWF := h
  obtain ⟨h1, h2, h3, h4, h5, h6⟩ := h
  unfold swapTiles
  rw [List.getD_eq_get _ _ hc, List.getD_eq_get _ _ hv]
  refine ⟨h1, h2,
    by simp only [List.length_set]; exact h3, ?_, ?_, ?_⟩
  · intro i hi
    have hi2 : i < g.tiles.length := by simpa using hi
    have h44 := h4 i hi2
    simp only [List.get_eq_getElem] at h44 ⊢
    rcases eq_or_ne v i with rfl | hvn
    · rw [List.getElem_set_self]
      have h4v := h4 v hv
      simp only [List.get_eq_getElem] at h4v
      exact ⟨h4v.1, h4v.2⟩
    · rw [List.getElem_set_ne hvn]
      rcases eq_or_ne c i with rfl | hcn
      · rw [List.getElem_set_self]
        have h4c := h4 c hc
        simp only [List.get_eq_getElem] at h4c
        exact ⟨h4c.1, h4c.2⟩
      · rw [List.getElem_set_ne hcn]
        exact h44
  · have hcm : c < (g.tiles.map SPTile.gridCurrent).length := by simpa using hc
    have hvm : v < (g.tiles.map SPTile.gridCurrent).length := by simpa using hv
    have hcur : (((g.tiles.set c
          { g.tiles.get ⟨c, hc⟩ with
            gridCurrent := (g.tiles.get ⟨v, hv⟩).gridCurrent }).set v
          { g.tiles.get ⟨v, hv⟩ with
            gridCurrent := (g.tiles.get ⟨c, hc⟩).gridCurrent }).map SPTile.gridCurrent)
        = ((g.tiles.map SPTile.gridCurrent).set c
              ((g.tiles.map SPTile.gridCurrent).get ⟨v, hvm⟩)).set v
            ((g.tiles.map SPTile.gridCurrent).get ⟨c, hcm⟩) := by
      rw [List.map_set, List.map_set]
      simp [List.get_eq_getElem, List.getElem_map]
    have horig : (((g.tiles.set c
          { g.tiles.get ⟨c, hc⟩ with
            gridCurrent := (g.tiles.get ⟨v, hv⟩).gridCurrent }).set v
          { g.tiles.get ⟨v, hv⟩ with
            gridCurrent := (g.tiles.get ⟨c, hc⟩).gridCurrent }).map SPTile.gridOrigin)
        = g.tiles.map SPTile.gridOrigin := by
      apply List.ext_getElem (by simp)
      intro n hn1 hn2
      have hn3 : n < g.tiles.length := by simpa using hn2
      simp only [List.getElem_map]
      rcases eq_or_ne v n with rfl | hvn
      · rw [List.getElem_set_self]
        simp [List.get_eq_getElem]
      · rw [List.getElem_set_ne hvn]
        rcases eq_or_ne c n with rfl | hcn
        · rw [List.getElem_set_self]
          simp [List.get_eq_getElem]
        · rw [List.getElem_set_ne hcn]
    rw [hcur, horig]
    exact (set_set_perm (g.tiles.map SPTile.gridCurrent) c v hcm hvm).trans h5
  · intro a ha
    exact h6 a ha

theorem WF_gameTurnCommit (g : SPGame) (h : WF g) (c v : ℕ)
    (hc : c < g.tiles.length) (hv : v < g.tiles.length) (hcv : c ≠ v) :
    WF (gameTurnCommit g c v).1 := by
  have hswap := WF_after_swap g h c v hc hv hcv
  rw [gameTurnCommit_eq]
  have hfields := checkAndFinish_fields { g with tiles := swapTiles g c v }
  exact WF_congr _ _ hswap hfields.1 hfields.2.1 hfields.2.2.1 hfields.2.2.2.1

theorem getShuffleArray_fixed (g : SPGame) (a : List ℕ) (seedss : List (ℕ → ℕ))
    (hfix : g.fixedShuffleArr = some a) : getShuffleArray g seedss = some a := by
  unfold getShuffleArray
  rw [hfix]

theorem gamePlay_none_eq (g : SPGame) (seedss : List (ℕ → ℕ))
    (hrun : g.isRunning = true) :
    gamePlay g none seedss = some (g, [], none) := by
  unfold gamePlay
  rw [hrun]
  simp

theorem gamePlay_start_none (g : SPGame) (click : Option ℕ)
    (seedss : List (ℕ → ℕ)) (hrun : g.isRunning = false)
    (hget : getShuffleArray g seedss = none) : gamePlay g click seedss = none := by
  unfold gamePlay
  rw [hrun, hget]
  simp

theorem gamePlayStep_move_eq (g : SPGame) (c : ℕ) (seedss : List (ℕ → ℕ))
    (hrun : g.isRunning = true) (hlock : g.lockedInput = false)
    (hadj : (g.voidTile.gridCurrent.subtract
      ((g.tiles.getD c defaultTile).gridCurrent)).lengthSquared = 1) :
    gamePlayStep g (some c) seedss
      = some ((gameTurnCommit { g with lockedInput := true } c (g.tileCnt - 1)).1,
          Hook.willMove ::
            (gameTurnCommit { g with lockedInput := true } c (g.tileCnt - 1)).2.1) := by
  unfold gamePlayStep
  rw [gamePlay_move_eq g c seedss hrun hlock hadj]
  simp

theorem gamePlayStep_stall_eq (g : SPGame) (c : ℕ) (seedss : List (ℕ → ℕ))
    (hrun : g.isRunning = true) (hlock : g.lockedInput = false)
    (hnadj : (g.voidTile.gridCurrent.subtract
      ((g.tiles.getD c defaultTile).gridCurrent)).lengthSquared ≠ 1) :
    gamePlayStep g (some c) seedss = some (g, [Hook.willStall]) := by
  unfold gamePlayStep
  rw [gamePlay_stall_eq g c seedss hrun hlock hnadj]

theorem adjacent_ne_void (g : SPGame) (c : ℕ)
    (hadj : (g.voidTile.gridCurrent.subtract
      ((g.tiles.getD c defaultTile).gridCurrent)).lengthSquared = 1) :
    c ≠ g.tileCnt - 1 := by
  intro hceq
  rw [hceq] at hadj
  simp [SPGame.voidTile, Vec2.subtract, Vec2.lengthSquared] at hadj

/-- C5: the permutation invariant — the tiles' `gridCurrent` values are a
permutation of the grid cells (equivalently of the `gridOrigin` values, no
duplicates and no gaps), bundled in `WF` — holds for the initial placement
and is preserved by every full interaction step (shuffle application on
start and the committed move of `gameTurn`'s callback) and by `resolve`. -/
theorem gridCurrent_permutation_invariant (rows cols : ℕ) (g g2 : SPGame)
    (click : Option ℕ) (seedss : List (ℕ → ℕ)) (hooks : List Hook)
    (hr : 2 ≤ rows) (hc : 2 ≤ cols)
    (hclick : ∀ i, click = some i → i < g.tiles.length) :
    WF (initGame rows cols) ∧
    (WF g → gamePlayStep g click seedss = some (g2, hooks) → WF g2) ∧
    (WF g → WF (resolve g).1) := by
  refine ⟨WF_initGame rows cols hr hc, ?_, fun hg => WF_after_resolve g hg⟩
  intro hg hstep
  cases hrun : g.isRunning with
  | false =>
    cases hget : getShuffleArray g seedss with
    | none =>
      unfold gamePlayStep at hstep
      rw [gamePlay_start_none g click seedss hrun hget] at hstep
      simp at hstep
    | some arr =>
      rw [gamePlayStep_start_eq g click seedss arr hrun hget] at hstep
      have harr : arr.Perm (List.range g.tileCnt) := by
        cases hfix : g.fixedShuffleArr with
        | none => exact getShuffleArray_random_perm g seedss arr hfix hget
        | some a =>
          have hga := getShuffleArray_fixed g a seedss hfix
          rw [hget] at hga
          rw [Option.some.inj hga]
          exact hg.2.2.2.2.2 a hfix
      simp only [Option.some.injEq, Prod.mk.injEq] at hstep
      obtain ⟨hgg, -⟩ := hstep
      rw [← hgg]
      exact WF_after_start g hg arr harr
  | true =>
    cases click with
    | none =>
      unfold gamePlayStep at hstep
      rw [gamePlay_none_eq g seedss hrun] at hstep
      simp only [Option.some.injEq, Prod.mk.injEq] at hstep
      obtain ⟨hgg, -⟩ := hstep
      rw [← hgg]
      exact hg
    | some c =>
      have hcl : c < g.tiles.length := hclick c rfl
      cases hlock : g.lockedInput with
      | true =>
        unfold gamePlayStep at hstep
        rw [gamePlay_locked_eq g (some c) seedss hrun hlock] at hstep
        simp only [Option.some.injEq, Prod.mk.injEq] at hstep
        obtain ⟨hgg, -⟩ := hstep
        rw [← hgg]
        exact hg
      | false =>
        by_cases hadj : (g.voidTile.gridCurrent.subtract
            ((g.tiles.getD c defaultTile).gridCurrent)).lengthSquared = 1
        · rw [gamePlayStep_move_eq g c seedss hrun hlock hadj] at hstep
          simp only [Option.some.injEq, Prod.mk.injEq] at hstep
          obtain ⟨hgg, -⟩ := hstep
          rw [← hgg]
          have hcv : c ≠ g.tileCnt - 1 := adjacent_ne_void g c hadj
          have hvl : g.tileCnt - 1 < g.tiles.length := by
            have hcnt := WF_tileCnt g hg
            have h3 := hg.2.2.1
            omega
          exact WF_gameTurnCommit { g with lockedInput := true } hg c
            (g.tileCnt - 1) hcl hvl hcv
        · rw [gamePlayStep_stall_eq g c seedss hrun hlock hadj] at hstep
          simp only [Option.some.injEq, Prod.mk.injEq] at hstep
          obtain ⟨hgg, -⟩ := hstep
          rw [← hgg]
          exact hg

/-- Witness for C5 at shape (2,2), evaluating both the initial placement
and a `resolve` from it. -/
theorem gridCurrent_permutation_invariant_witness :
    WF (initGame 2 2) ∧ WF (resolve (initGame 2 2)).1 := by
  have h := gridCurrent_permutation_invariant 2 2 (initGame 2 2) (initGame 2 2)
    none [] [] (by decide) (by decide) (fun i hi => by cases hi)
  exact ⟨h.1, h.2.2 h.1⟩

theorem swapTiles_length (g : SPGame) (c v : ℕ) :
    (swapTiles g c v).length = g.tiles.length := by
  simp [swapTiles]

theorem swapTiles_getD_clicked (g : SPGame) (c v : ℕ) (hc : c < g.tiles.length)
    (hcv : c ≠ v) :
    (swapTiles g c v).getD c defaultTile
      = { g.tiles.getD c defaultTile with
          gridCurrent := (g.tiles.getD v defaultTile).gridCurrent } := by
  unfold swapTiles
  rw [getD_set_ne _ (fun h => hcv h.symm), getD_set_self _ _ _ _ hc]

theorem swapTiles_getD_void (g : SPGame) (c v : ℕ) (hv : v < g.tiles.length) :
    (swapTiles g c v).getD v defaultTile
      = { g.tiles.getD v defaultTile with
          gridCurrent := (g.tiles.getD c defaultTile).gridCurrent } := by
  unfold swapTiles
  rw [getD_set_self _ _ _ _ (by simpa using hv)]

theorem swapTiles_getD_other (g : SPGame) (c v j : ℕ) (hjc : j ≠ c) (hjv : j ≠ v) :
    (swapTiles g c v).getD j defaultTile = g.tiles.getD j defaultTile := by
  unfold swapTiles
  rw [getD_set_ne _ (fun h => hjv h.symm), getD_set_ne _ (fun h => hjc h.symm)]

theorem gameTurnCommit_parts (g : SPGame) (c v : ℕ) :
    (gameTurnCommit g c v).1.tiles = swapTiles g c v ∧
    (gameTurnCommit g c v).1.lockedInput = false := by
  rw [gameTurnCommit_eq]
  have hf := (checkAndFinish_fields { g with tiles := swapTiles g c v }).1
  constructor
  · simp only []
    rw [hf]
  · simp

/-- C6: in a running, unlocked game, clicking a tile whose grid position
differs from the void tile's by squared length exactly 1 fires `willMove`
and locks input; after the animation-completion callback the clicked tile
holds the void tile's prior cell and vice versa, every other tile is
unchanged, and input is unlocked again. -/
theorem click_adjacent_spec (g : SPGame) (c : ℕ) (seedss : List (ℕ → ℕ))
    (hrun : g.isRunning = true) (hlock : g.lockedInput = false)
    (hcl : c < g.tiles.length) (hvl : g.tileCnt - 1 < g.tiles.length)
    (hadj : (g.voidTile.gridCurrent.subtract
      ((g.tiles.getD c defaultTile).gridCurrent)).lengthSquared = 1) :
    (gamePlay g (some c) seedss
        = some ({ g with lockedInput := true }, [Hook.willMove],
            some (c, g.tileCnt - 1))) ∧
    (∃ g2 hooks2,
      gamePlayStep g (some c) seedss = some (g2, Hook.willMove :: hooks2) ∧
      g2.lockedInput = false ∧
      (g2.tiles.getD c defaultTile).gridCurrent = g.voidTile.gridCurrent ∧
      (g2.tiles.getD (g.tileCnt - 1) defaultTile).gridCurrent
        = (g.tiles.getD c defaultTile).gridCurrent ∧
      (∀ j, j ≠ c → j ≠ g.tileCnt - 1 →
        (g2.tiles.getD j defaultTile).gridCurrent
          = (g.tiles.getD j defaultTile).gridCurrent)) := by
  have hcv : c ≠ g.tileCnt - 1 := adjacent_ne_void g c hadj
  refine ⟨gamePlay_move_eq g c seedss hrun hlock hadj, ?_⟩
  have hparts := gameTurnCommit_parts { g with lockedInput := true } c
    (g.tileCnt - 1)
  refine ⟨_, _, gamePlayStep_move_eq g c seedss hrun hlock hadj, hparts.2,
    ?_, ?_, ?_⟩
  · rw [hparts.1, swapTiles_getD_clicked { g with lockedInput := true } c
      (g.tileCnt - 1) hcl hcv]
    rfl
  · rw [hparts.1, swapTiles_getD_void { g with lockedInput := true } c
      (g.tileCnt - 1) hvl]
  · intro j hjc hjv
    rw [hparts.1, swapTiles_getD_other { g with lockedInput := true } c
      (g.tileCnt - 1) j hjc hjv]

/-- Witness for C6: clicking tile 1 of `gRun` (adjacent to the void). -/
theorem click_adjacent_spec_witness :
    (gamePlay gRun (some 1) []
        = some ({ gRun with lockedInput := true }, [Hook.willMove],
            some (1, gRun.tileCnt - 1))) ∧
    (∃ g2 hooks2,
      gamePlayStep gRun (some 1) [] = some (g2, Hook.willMove :: hooks2) ∧
      g2.lockedInput = false ∧
      (g2.tiles.getD 1 defaultTile).gridCurrent = gRun.voidTile.gridCurrent ∧
      (g2.tiles.getD (gRun.tileCnt - 1) defaultTile).gridCurrent
        = (gRun.tiles.getD 1 defaultTile).gridCurrent ∧
      (∀ j, j ≠ 1 → j ≠ gRun.tileCnt - 1 →
        (g2.tiles.getD j defaultTile).gridCurrent
          = (gRun.tiles.getD j defaultTile).gridCurrent)) :=
  click_adjacent_spec gRun 1 [] rfl rfl (by decide) (by decide) (by decide)

/-- C7: in a running, unlocked game, clicking a tile whose grid-position
squared delta to the void tile is not exactly 1 fires `willStall` and
changes nothing: the state (all tile positions, `isRunning`,
`lockedInput`) is returned untouched and no move is pending. -/
theorem click_nonadjacent_spec (g : SPGame) (c : ℕ) (seedss : List (ℕ → ℕ))
    (hrun : g.isRunning = true) (hlock : g.lockedInput = false)
    (hnadj : (g.voidTile.gridCurrent.subtract
      ((g.tiles.getD c defaultTile).gridCurrent)).lengthSquared ≠ 1) :
    gamePlay g (some c) seedss = some (g, [Hook.willStall], none) ∧
    gamePlayStep g (some c) seedss = some (g, [Hook.willStall]) :=
  ⟨gamePlay_stall_eq g c seedss hrun hlock hnadj,
    gamePlayStep_stall_eq g c seedss hrun hlock hnadj⟩

/-- Witness for C7: clicking tile 2 of `gRun`, diagonal to the void
(squared delta 2). -/
theorem click_nonadjacent_spec_witness :
    gamePlay gRun (some 2) [] = some (gRun, [Hook.willStall], none) ∧
    gamePlayStep gRun (some 2) [] = some (gRun, [Hook.willStall]) :=
  click_nonadjacent_spec gRun 2 [] rfl rfl (by decide)

/-- C8: after `resolve()` every tile's `gridCurrent` equals its
`gridOrigin` (so a subsequent completion check reports completed), the
void tile's visibility is restored, `isRunning` is false, and no hook —
in particular not `finish` — is invoked by the call. -/
theorem resolve_spec (g : SPGame) (h : WF g) :
    (resolve g).2 = [] ∧
    (∀ t ∈ (resolve g).1.tiles, t.gridCurrent = t.gridOrigin) ∧
    (resolve g).1.voidAlive = true ∧
    (resolve g).1.isRunning = false ∧
    (checkAndFinish (resolve g).1).2.2 = true := by
  refine ⟨by rw [resolve_eq], resolve_tiles_at_origin g h, by rw [resolve_eq],
    by rw [resolve_eq], ?_⟩
  exact (checkAndFinish_verdict _ (WF_after_resolve g h)).mpr
    (resolve_tiles_at_origin g h)

/-- Witness for C8 at the concrete running state `gRun`. -/
theorem resolve_spec_witness :
    (resolve gRun).2 = [] ∧
    (∀ t ∈ (resolve gRun).1.tiles, t.gridCurrent = t.gridOrigin) ∧
    (resolve gRun).1.voidAlive = true ∧
    (resolve gRun).1.isRunning = false ∧
    (checkAndFinish (resolve gRun).1).2.2 = true :=
  resolve_spec gRun (WF_of_WFb (by decide))

theorem setfixedShuffleArr_ok (g : SPGame) (arr : List ℕ) (g2 : SPGame)
    (h : setfixedShuffleArr g arr = Except.ok g2) :
    g2 = { g with fixedShuffleArr := some arr } := by
  simp only [setfixedShuffleArr] at h
  split_ifs at h
  exact (Except.ok.inj h).symm

theorem gamePlayStep_fixed (g : SPGame) (click : Option ℕ)
    (seedss : List (ℕ → ℕ)) (g2 : SPGame) (hooks : List Hook)
    (hstep : gamePlayStep g click seedss = some (g2, hooks)) :
    g2.fixedShuffleArr = g.fixedShuffleArr := by
  cases hrun : g.isRunning with
  | false =>
    cases hget : getShuffleArray g seedss with
    | none =>
      unfold gamePlayStep at hstep
      rw [gamePlay_start_none g click seedss hrun hget] at hstep
      simp at hstep
    | some arr =>
      rw [gamePlayStep_start_eq g click seedss arr hrun hget] at hstep
      simp only [Option.some.injEq, Prod.mk.injEq] at hstep
      obtain ⟨hgg, -⟩ := hstep
      rw [← hgg]
  | true =>
    cases click with
    | none =>
      unfold gamePlayStep at hstep
      rw [gamePlay_none_eq g seedss hrun] at hstep
      simp only [Option.some.injEq, Prod.mk.injEq] at hstep
      obtain ⟨hgg, -⟩ := hstep
      rw [← hgg]
    | some c =>
      cases hlock : g.lockedInput with
      | true =>
        unfold gamePlayStep at hstep
        rw [gamePlay_locked_eq g (some c) seedss hrun hlock] at hstep
        simp only [Option.some.injEq, Prod.mk.injEq] at hstep
        obtain ⟨hgg, -⟩ := hstep
        rw [← hgg]
      | false =>
        by_cases hadj : (g.voidTile.gridCurrent.subtract
            ((g.tiles.getD c defaultTile).gridCurrent)).lengthSquared = 1
        · rw [gamePlayStep_move_eq g c seedss hrun hlock hadj] at hstep
          simp only [Option.some.injEq, Prod.mk.injEq] at hstep
          obtain ⟨hgg, -⟩ := hstep
          rw [← hgg, gameTurnCommit_eq]
          have hf := (checkAndFinish_fields { { g with lockedInput := true } with
            tiles := swapTiles { g with lockedInput := true } c
              (g.tileCnt - 1) }).2.2.2.1
          simp only []
          rw [hf]
        · rw [gamePlayStep_stall_eq g c seedss hrun hlock hadj] at hstep
          simp only [Option.some.injEq, Prod.mk.injEq] at hstep
          obtain ⟨hgg, -⟩ := hstep
          rw [← hgg]

/-- C9: once a fixed shuffle is stored, every (re)start obtains exactly
that arrangement from `getShuffleArray` without re-validating it; the
stored arrangement survives interaction steps and `resolve`, is replaced
by a newly validated arrangement passed to `reShuffle`, and is cleared by
`reShuffle` without an argument. -/
theorem fixedShuffle_reuse_spec (g : SPGame) (a : List ℕ) (click : Option ℕ)
    (seedss : List (ℕ → ℕ)) :
    (g.fixedShuffleArr = some a → getShuffleArray g seedss = some a) ∧
    (∀ g2 hooks, gamePlayStep g click seedss = some (g2, hooks) →
      g2.fixedShuffleArr = g.fixedShuffleArr) ∧
    ((resolve g).1.fixedShuffleArr = g.fixedShuffleArr) ∧
    (∀ arr res, reShuffle g (some arr) seedss = Except.ok res →
      ∀ g2 hooks, res = some (g2, hooks) → g2.fixedShuffleArr = some arr) ∧
    (∀ res, reShuffle g none seedss = Except.ok res →
      ∀ g2 hooks, res = some (g2, hooks) → g2.fixedShuffleArr = none) := by
  refine ⟨fun hfix => getShuffleArray_fixed g a seedss hfix,
    fun g2 hooks hstep => gamePlayStep_fixed g click seedss g2 hooks hstep,
    by rw [resolve_eq], ?_, ?_⟩
  · intro arr res hre g2 hooks hres
    simp only [reShuffle] at hre
    cases hset : setfixedShuffleArr { g with isRunning := false } arr with
    | error e => rw [hset] at hre; simp at hre
    | ok g3 =>
      rw [hset] at hre
      simp only [Except.ok.injEq] at hre
      rw [← hre] at hres
      have h3 := setfixedShuffleArr_ok _ arr g3 hset
      have hfx := gamePlayStep_fixed g3 none seedss g2 hooks hres
      rw [hfx, h3]
  · intro res hre g2 hooks hres
    simp only [reShuffle] at hre
    simp only [Except.ok.injEq] at hre
    rw [← hre] at hres
    exact gamePlayStep_fixed _ none seedss g2 hooks hres

/-- Witness for C9: a stored fixed shuffle is returned as-is. -/
theorem fixedShuffle_reuse_spec_witness :
    getShuffleArray { gRun with fixedShuffleArr := some [0, 1, 3, 2] } []
      = some [0, 1, 3, 2] :=
  (fixedShuffle_reuse_spec { gRun with fixedShuffleArr := some [0, 1, 3, 2] }
    [0, 1, 3, 2] none []).1 rfl

/-- C10: a click processed while `isRunning` is false — whatever the click
resolved to and regardless of the input lock — starts a new game: it fires
the `start` hook, hides the void tile, obtains an arrangement (the stored
fixed one when present), repositions every tile to its shuffled cell
without animation, and sets `isRunning`. -/
theorem start_on_click_spec (g : SPGame) (click : Option ℕ)
    (seedss : List (ℕ → ℕ)) (arr : List ℕ)
    (hrun : g.isRunning = false)
    (hget : getShuffleArray g seedss = some arr) :
    (gamePlayStep g click seedss
      = some ({ g with
          voidAlive := false
          tiles := g.tiles.map (fun x =>
            repositionTile g.puzzleShapeY x (List.indexOf x.index arr))
          isRunning := true }, [Hook.start])) ∧
    (∀ a, g.fixedShuffleArr = some a → arr = a) ∧
    (∀ click2, gamePlayStep g click2 seedss = gamePlayStep g click seedss) := by
  refine ⟨gamePlayStep_start_eq g click seedss arr hrun hget, ?_, ?_⟩
  · intro a hfix
    have h := getShuffleArray_fixed g a seedss hfix
    rw [hget] at h
    exact Option.some.inj h
  · intro click2
    rw [gamePlayStep_start_eq g click2 seedss arr hrun hget,
      gamePlayStep_start_eq g click seedss arr hrun hget]

/-- Witness for C10: a click on a fresh 2×2 game with a deterministic seed
stream; the first Fisher–Yates candidate `[1,2,3,0]` is solvable and is
applied. -/
theorem start_on_click_spec_witness :
    (gamePlayStep (initGame 2 2) (some 0) [fun _ => 0]
      = some ({ initGame 2 2 with
          voidAlive := false
          tiles := (initGame 2 2).tiles.map (fun x =>
            repositionTile (initGame 2 2).puzzleShapeY x
              (List.indexOf x.index [1, 2, 3, 0]))
          isRunning := true }, [Hook.start])) ∧
    (∀ a, (initGame 2 2).fixedShuffleArr = some a → [1, 2, 3, 0] = a) ∧
    (∀ click2, gamePlayStep (initGame 2 2) click2 [fun _ => 0]
      = gamePlayStep (initGame 2 2) (some 0) [fun _ => 0]) :=
  start_on_click_spec (initGame 2 2) (some 0) [fun _ => 0] [1, 2, 3, 0]
    rfl (by decide)
